import Mathlib

/-!
Verification of the core of `rubbernecker` (Bloom-filter deduplication and the
parallel parse pipeline) against its natural-language specification.

The Python sources embedded here:
  * `src/rubbernecker/crawl/bloomfilter.py` — class `BloomFilter`
  * `src/rubbernecker/parse/tool.py` — `ParseToolStats`, `worker_process`,
    `writer_process`, and the interrupt handler of `ParseTool.parse_parallel`

Modelling conventions:
  * Python exceptions are modelled with `Option`: `none` means the operation
    raised (ZeroDivisionError, IndexError, a transform error, ...).
  * `hashlib.md5(...).hexdigest()` interpreted as an integer is an external
    library call; it is a parameter `md5 : String → Nat` of every Bloom-filter
    operation (the code only depends on it being a deterministic function of
    the input string).
  * The record transform (`parser.parse`) is a Python generator that yields
    zero or more records (possibly `None`) and may raise part-way through; it
    is modelled as a function returning the list of values yielded before
    termination plus a flag telling whether iteration ended by raising.
  * Multiprocessing queues are modelled by quantifying over the sequence of
    messages as they arrive at each consumer; any interleaving of the worker
    output streams is admissible.
-/

namespace Rubbernecker

/-! ## Bloom filter (src/rubbernecker/crawl/bloomfilter.py) -/

def DEFAULT_SIZE : Nat := 15000000

def DEFAULT_HASH_COUNT : Nat := 9

/-- State of a `BloomFilter` object: fields `size`, `hash_count`, `bit_array`. -/
structure BloomFilter where
  size : Nat
  hash_count : Nat
  bit_array : List Nat
deriving DecidableEq, Repr

/-- `BloomFilter.__init__`: stores `size` and `hash_count` unchecked and
allocates `[0] * size`.  The Python constructor has no failure path. -/
def BloomFilter.init (size : Nat) (hash_count : Nat) : BloomFilter :=
  { size := size, hash_count := hash_count, bit_array := List.replicate size 0 }

/-- Python `a % n` on naturals: raises `ZeroDivisionError` when `n = 0`. -/
def pyMod (a n : Nat) : Option Nat :=
  if n = 0 then none else some (a % n)

/-- `BloomFilter._hashes`: the list of values produced by the generator
`(int(md5((item+str(i)).encode()).hexdigest(),16) % size for i in range(hash_count))`,
`none` if iterating it raises (division by zero when `size = 0` and at least
one index is demanded).  Note `hash_count = 0` yields `some []`: the loop body
never runs, so a zero `size` goes unnoticed. -/
def BloomFilter.hashes (md5 : String → Nat) (bf : BloomFilter) (item : String) :
    Option (List Nat) :=
  (List.range bf.hash_count).mapM (fun i => pyMod (md5 (item ++ toString i)) bf.size)

/-- Python `l[i] = 1` on a list: `IndexError` when `i` is out of range. -/
def listSetBit (l : List Nat) (i : Nat) : Option (List Nat) :=
  if i < l.length then some (l.set i 1) else none

/-- `BloomFilter.add`: `for hash_value in self._hashes(item): self.bit_array[hash_value] = 1`.
Returns the updated object, or `none` if the loop raised. -/
def BloomFilter.add (md5 : String → Nat) (bf : BloomFilter) (item : String) :
    Option BloomFilter :=
  match bf.hashes md5 item with
  | none => none
  | some hs =>
    match hs.foldlM listSetBit bf.bit_array with
    | none => none
    | some ba => some { bf with bit_array := ba }

/-- `all(self.bit_array[h] for h in hashes)` with Python short-circuiting:
stop at the first zero bit; indexing out of range raises. -/
def checkBits (l : List Nat) : List Nat → Option Bool
  | [] => some true
  | h :: t =>
    match l.get? h with
    | none => none
    | some b => if b ≠ 0 then checkBits l t else some false

/-- `BloomFilter.check`.  (The Python generator computes hashes lazily, but a
hash computation can only fail when `size = 0`, in which case the very first
demand fails before any bit is read — so computing the hash list up front is
observationally identical.) -/
def BloomFilter.check (md5 : String → Nat) (bf : BloomFilter) (item : String) :
    Option Bool :=
  match bf.hashes md5 item with
  | none => none
  | some hs => checkBits bf.bit_array hs

/-- A sequence of `add` calls, propagating a raise from any of them. -/
def BloomFilter.addAll (md5 : String → Nat) (bf : BloomFilter) (ks : List String) :
    Option BloomFilter :=
  ks.foldlM (fun b k => BloomFilter.add md5 b k) bf

/-- The representation invariant established by `__init__`. -/
def BloomFilter.wf (bf : BloomFilter) : Prop :=
  bf.bit_array.length = bf.size

instance (bf : BloomFilter) : Decidable bf.wf :=
  inferInstanceAs (Decidable (bf.bit_array.length = bf.size))

/-- Concrete stand-in digest function used by witnesses (the theorems hold for
an arbitrary digest function). -/
def md5c (s : String) : Nat :=
  s.length

/-- The filter obtained from `BloomFilter.init 7 2` by `add md5c "a"`. -/
def bfW : BloomFilter :=
  { size := 7, hash_count := 2, bit_array := [0, 0, 1, 0, 0, 0, 0] }

/-! ## Parse pipeline (src/rubbernecker/parse/tool.py) -/

/-- `ParseToolStats`: the three counters. -/
structure ParseToolStats where
  count_input : Nat
  count_output : Nat
  count_error : Nat
deriving DecidableEq, Repr

/-- One run of the generator returned by `parser.parse(record)`: the values
it yielded (possibly `None`) before iteration stopped, and whether iteration
stopped by raising an exception (`true`) rather than by normal exhaustion. -/
structure GenRun (ρ' : Type) where
  yields : List (Option ρ')
  raises : Bool
deriving DecidableEq, Repr

/-- An item on `work_queue`: the poison pill `(None, None)` or a
`(seq_id, record)` pair. -/
inductive WTask (ρ : Type) where
  | poison
  | task (seq : Nat) (record : ρ)
deriving DecidableEq, Repr

/-- An item on `result_queue`: `("done", None, None, None)` or
`("result", seq_id, results, stats)`, where `results` is `None` exactly when
the transform raised on that task. -/
inductive Msg (ρ' : Type) where
  | done
  | result (seq : Nat) (results : Option (List ρ')) (stats : ParseToolStats)
deriving DecidableEq, Repr

/-- Lines 66–82 of `worker_process`: handle one real task.  `count_input` is
set to 1 up front; every non-`None` yielded record is appended to `results`
and bumps `count_output`; if the generator raises, `count_error` is set to 1
and the message carries `None` in place of the (discarded) results, keeping
the `count_output` accumulated so far. -/
def worker_handle_task {ρ ρ' : Type} (parse : ρ → GenRun ρ') (seq : Nat) (record : ρ) :
    Msg ρ' :=
  let run := parse record
  let results := run.yields.filterMap id
  if run.raises then Msg.result seq none ⟨1, results.length, 1⟩
  else Msg.result seq (some results) ⟨1, results.length, 0⟩

/-- The `while True` loop of `worker_process` (lines 59–83): the messages the
worker puts on `result_queue`, as a function of the successive values
`work_queue.get()` hands it.  A poison pill makes it put one `done` and
break; if the modelled task stream ends without a pill the worker is blocked
in `get`, having emitted only the messages so far. -/
def worker_loop {ρ ρ' : Type} (parse : ρ → GenRun ρ') : List (WTask ρ) → List (Msg ρ')
  | [] => []
  | WTask.poison :: _ => [Msg.done]
  | WTask.task s r :: rest => worker_handle_task parse s r :: worker_loop parse rest

/-- `worker_process` (lines 41–83).  `init` models
`ParseTool._load_parser_static(parser_class, script_path)`: `none` when the
dynamic load raises, in which case the worker immediately puts one `done` and
returns (lines 49–57). -/
def worker_process {ρ ρ' : Type} (init : Option (ρ → GenRun ρ')) (tasks : List (WTask ρ)) :
    List (Msg ρ') :=
  match init with
  | none => [Msg.done]
  | some parse => worker_loop parse tasks

/-- The messages one worker with transform `parse` emits when, of the tasks
the Coordinator enqueued, it dequeues exactly the real tasks `ts` (in that
order) followed by one poison pill. -/
def worker_msgs {ρ ρ' : Type} (parse : ρ → GenRun ρ') (ts : List (Nat × ρ)) :
    List (Msg ρ') :=
  worker_process (some parse) ((ts.map fun p => WTask.task p.1 p.2) ++ [WTask.poison])

/-- State of `writer_process`: the `workers_done` counter, the shared
`stats_accumulator` entries, and the records appended to the Avro writer so
far (the output container's contents). -/
structure WriterState (ρ' : Type) where
  workers_done : Nat
  count_input : Nat
  count_output : Nat
  count_error : Nat
  written : List ρ'
deriving DecidableEq, Repr

/-- Writer state on entry: counter zero, zeroed accumulator (lines 236–239),
freshly truncated output (mode `"wb"`). -/
def initWriterState (ρ' : Type) : WriterState ρ' :=
  { workers_done := 0, count_input := 0, count_output := 0, count_error := 0, written := [] }

/-- One iteration body of the writer loop (lines 98–124): a `done` bumps
`workers_done`; a result message is accumulated into the shared stats and,
when `results` is truthy (not `None` and not empty), its records are appended
to the writer.  (`results.getD []` appends nothing in both falsy cases, which
is what `if results:` skips; the progress log line alters no state.) -/
def writer_step {ρ' : Type} (st : WriterState ρ') : Msg ρ' → WriterState ρ'
  | Msg.done => { st with workers_done := st.workers_done + 1 }
  | Msg.result _ results stats =>
    { st with
      count_input := st.count_input + stats.count_input
      count_output := st.count_output + stats.count_output
      count_error := st.count_error + stats.count_error
      written := st.written ++ results.getD [] }

/-- The `while workers_done < num_workers` loop of `writer_process`
(lines 97–126), driven by the successive values `result_queue.get()` returns.
Yields the final state, whether the loop exited (leaving the `with` block and
closing the Avro writer), and the messages left unread.  An empty message
list with the loop still willing to run is a `get` that blocks forever. -/
def writer_run {ρ' : Type} (num_workers : Nat) (st : WriterState ρ') :
    List (Msg ρ') → WriterState ρ' × Bool × List (Msg ρ')
  | [] => if st.workers_done < num_workers then (st, false, []) else (st, true, [])
  | m :: rest =>
    if st.workers_done < num_workers then writer_run num_workers (writer_step st m) rest
    else (st, true, m :: rest)

/-- Line 226 of `parse_parallel`. -/
def queue_maxsize (num_workers : Nat) : Nat :=
  max 100 (num_workers * 10)

/-- The two bounded queues created per input/output pair (lines 227–232),
identified by their capacities; nothing later in `parse_parallel` ever
resizes a queue, so these are the capacities for the whole run. -/
structure PipelineQueues where
  work_queue_maxsize : Nat
  result_queue_maxsize : Nat
deriving DecidableEq, Repr

def mkPipelineQueues (num_workers : Nat) : PipelineQueues :=
  { work_queue_maxsize := queue_maxsize num_workers
    result_queue_maxsize := queue_maxsize num_workers }

/-- Per-message contribution to the writer's `count_input` accumulator. -/
def msgInput {ρ' : Type} : Msg ρ' → Nat
  | Msg.done => 0
  | Msg.result _ _ stats => stats.count_input

/-- Per-message contribution to the writer's `count_output` accumulator. -/
def msgOutput {ρ' : Type} : Msg ρ' → Nat
  | Msg.done => 0
  | Msg.result _ _ stats => stats.count_output

/-- Per-message contribution to the writer's `count_error` accumulator. -/
def msgError {ρ' : Type} : Msg ρ' → Nat
  | Msg.done => 0
  | Msg.result _ _ stats => stats.count_error

/-- Per-message number of records the writer appends to the output. -/
def msgWrites {ρ' : Type} : Msg ρ' → Nat
  | Msg.done => 0
  | Msg.result _ results _ => (results.getD []).length

def Msg.isDone {ρ' : Type} : Msg ρ' → Bool
  | Msg.done => true
  | _ => false

/-- Number of `WorkerDone` sentinels in a message list. -/
def countDone {ρ' : Type} (msgs : List (Msg ρ')) : Nat :=
  msgs.countP Msg.isDone

/-- Observable events of the `except KeyboardInterrupt` handler of
`parse_parallel` (lines 307–326), in program order. -/
inductive CleanupEvent where
  | logInterrupted
  | terminateWorker (i : Nat)
  | terminateWriter
  | logDiscarding
  | attemptDelete
  | reraise
deriving DecidableEq, Repr

/-- How the handler leaves `parse_parallel`: the bare `raise` re-raises the
interruption — it never falls through to `return stats`. -/
inductive RunOutcome where
  | reraised
  | returned (stats : ParseToolStats)
deriving DecidableEq, Repr

/-- `try: output_url.delete() except Exception: pass` (lines 322–325): the
outcome of the delete call is supplied by the environment; both branches
produce the same observable events — the failure is swallowed without any
logging. -/
def try_delete_output (delete_result : Except String Unit) : List CleanupEvent :=
  match delete_result with
  | Except.ok _ => [CleanupEvent.attemptDelete]
  | Except.error _ => [CleanupEvent.attemptDelete]

/-- The `except KeyboardInterrupt` handler (lines 307–326): warn, terminate
every still-alive worker, terminate the writer if alive, warn about the
discard, best-effort delete, then re-raise.  `workers_alive i` models
`workers[i].is_alive()`. -/
def on_interrupt (workers_alive : List Bool) (writer_alive : Bool)
    (delete_result : Except String Unit) : List CleanupEvent × RunOutcome :=
  ([CleanupEvent.logInterrupted] ++
    ((workers_alive.enum.filter fun p => p.2).map fun p => CleanupEvent.terminateWorker p.1) ++
    (if writer_alive then [CleanupEvent.terminateWriter] else []) ++
    [CleanupEvent.logDiscarding] ++
    try_delete_output delete_result ++
    [CleanupEvent.reraise],
   RunOutcome.reraised)

/-- Concrete transform for witnesses: yields exactly the record, succeeds. -/
def parseOkB (r : Bool) : GenRun Bool :=
  { yields := [some r], raises := false }

/-- Concrete transform for witnesses: yields the record and a `None`, then
raises. -/
def parseFail (r : Nat) : GenRun Nat :=
  { yields := [some r, none], raises := true }

/-- Concrete input records for the pipeline witness. -/
def recordsW : List Bool := [true, false, true]

/-- A distribution of the three enumerated tasks over two workers, for the
pipeline witness. -/
def partsW : List (List (Nat × Bool)) := [[(0, true), (2, true)], [(1, false)]]

/-- One admissible arrival order of the two workers' messages, for the
pipeline witness. -/
def msgsW : List (Msg Bool) :=
  [Msg.result 1 (some [false]) ⟨1, 1, 0⟩,
   Msg.result 0 (some [true]) ⟨1, 1, 0⟩,
   Msg.done,
   Msg.result 2 (some [true]) ⟨1, 1, 0⟩,
   Msg.done]

/-! ## Bloom filter lemmas -/

theorem listSetBit_some {l l' : List Nat} {i : Nat} (h : listSetBit l i = some l') :
    i < l.length ∧ l' = l.set i 1 := by
  unfold listSetBit at h
  split at h
  · exact ⟨by assumption, (Option.some.inj h).symm⟩
  · cases h

theorem setBits_length : ∀ (hs : List Nat) (l l' : List Nat),
    hs.foldlM listSetBit l = some l' → l'.length = l.length := by
  intro hs
  induction hs with
  | nil =>
    intro l l' h
    simp only [List.foldlM_nil, pure, Option.some.injEq] at h
    simp [h]
  | cons a t ih =>
    intro l l' h
    rw [List.foldlM_cons] at h
    cases hx : listSetBit l a with
    | none => rw [hx] at h; cases h
    | some l1 =>
      rw [hx] at h
      simp only [Option.bind_eq_bind, Option.some_bind] at h
      obtain ⟨hlt, rfl⟩ := listSetBit_some hx
      rw [ih _ _ h, List.length_set]

theorem setBits_preserves_one : ∀ (hs : List Nat) (l l' : List Nat),
    hs.foldlM listSetBit l = some l' →
    ∀ j, l.get? j = some 1 → l'.get? j = some 1 := by
  intro hs
  induction hs with
  | nil =>
    intro l l' h j hj
    simp only [List.foldlM_nil, pure, Option.some.injEq] at h
    rw [← h]; exact hj
  | cons a t ih =>
    intro l l' h j hj
    rw [List.foldlM_cons] at h
    cases hx : listSetBit l a with
    | none => rw [hx] at h; cases h
    | some l1 =>
      rw [hx] at h
      simp only [Option.bind_eq_bind, Option.some_bind] at h
      obtain ⟨hlt, rfl⟩ := listSetBit_some hx
      refine ih _ _ h j ?_
      by_cases hja : a = j
      · subst hja
        rw [List.get?_set_eq_of_lt 1 hlt]
      · rw [List.get?_set_ne 1 l hja]
        exact hj

theorem setBits_sets_one : ∀ (hs : List Nat) (l l' : List Nat),
    hs.foldlM listSetBit l = some l' →
    ∀ j ∈ hs, l'.get? j = some 1 := by
  intro hs
  induction hs with
  | nil => intro l l' _ j hj; cases hj
  | cons a t ih =>
    intro l l' h j hj
    rw [List.foldlM_cons] at h
    cases hx : listSetBit l a with
    | none => rw [hx] at h; cases h
    | some l1 =>
      rw [hx] at h
      simp only [Option.bind_eq_bind, Option.some_bind] at h
      obtain ⟨hlt, rfl⟩ := listSetBit_some hx
      rcases List.mem_cons.1 hj with rfl | hjt
      · refine setBits_preserves_one t _ _ h j ?_
        rw [List.get?_set_eq_of_lt 1 hlt]
      · exact ih _ _ h j hjt

theorem checkBits_true_of_ones : ∀ (hs : List Nat) (l : List Nat),
    (∀ j ∈ hs, l.get? j = some 1) → checkBits l hs = some true := by
  intro hs
  induction hs with
  | nil => intro l _; rfl
  | cons a t ih =>
    intro l h
    unfold checkBits
    rw [h a (List.mem_cons_self a t)]
    simp only [ne_eq, OfNat.one_ne_ofNat, not_false_eq_true, if_pos]
    exact ih l fun j hj => h j (List.mem_cons_of_mem a hj)

/-- Unfolds a successful `add`. -/
theorem add_eq_some {md5 : String → Nat} {bf bf' : BloomFilter} {k : String}
    (h : bf.add md5 k = some bf') :
    ∃ hs, bf.hashes md5 k = some hs ∧
      hs.foldlM listSetBit bf.bit_array = some bf'.bit_array ∧
      bf'.size = bf.size ∧ bf'.hash_count = bf.hash_count := by
  unfold BloomFilter.add at h
  split at h
  · cases h
  · rename_i hs hh
    split at h
    · cases h
    · rename_i ba hb
      injection h with h
      subst h
      exact ⟨hs, hh, hb, rfl, rfl⟩

/-- `hashes` depends only on the `size` and `hash_count` fields. -/
theorem hashes_congr {md5 : String → Nat} {bf bf' : BloomFilter} {k : String}
    (hsz : bf'.size = bf.size) (hhc : bf'.hash_count = bf.hash_count) :
    bf'.hashes md5 k = bf.hashes md5 k := by
  unfold BloomFilter.hashes
  rw [hsz, hhc]

/-- A successful `add` preserves the filter shape and every set bit. -/
theorem add_mono {md5 : String → Nat} {bf bf' : BloomFilter} {k : String}
    (h : bf.add md5 k = some bf') :
    bf'.size = bf.size ∧ bf'.hash_count = bf.hash_count ∧
      ∀ j, bf.bit_array.get? j = some 1 → bf'.bit_array.get? j = some 1 := by
  obtain ⟨hs, _, hb, hsz, hhc⟩ := add_eq_some h
  exact ⟨hsz, hhc, fun j hj => setBits_preserves_one hs _ _ hb j hj⟩

/-- A successful `addAll` preserves the filter shape and every set bit. -/
theorem addAll_mono {md5 : String → Nat} :
    ∀ (ks : List String) (bf bf' : BloomFilter),
    bf.addAll md5 ks = some bf' →
    bf'.size = bf.size ∧ bf'.hash_count = bf.hash_count ∧
      ∀ j, bf.bit_array.get? j = some 1 → bf'.bit_array.get? j = some 1 := by
  intro ks
  induction ks with
  | nil =>
    intro bf bf' h
    simp only [BloomFilter.addAll, List.foldlM_nil, pure, Option.some.injEq] at h
    rw [← h]
    exact ⟨rfl, rfl, fun _ hj => hj⟩
  | cons a t ih =>
    intro bf bf' h
    unfold BloomFilter.addAll at h
    rw [List.foldlM_cons] at h
    cases hx : bf.add md5 a with
    | none => rw [hx] at h; cases h
    | some b1 =>
      rw [hx] at h
      simp only [Option.bind_eq_bind, Option.some_bind] at h
      obtain ⟨h1sz, h1hc, h1m⟩ := add_mono hx
      obtain ⟨h2sz, h2hc, h2m⟩ := ih b1 bf' h
      exact ⟨h2sz.trans h1sz, h2hc.trans h1hc, fun j hj => h2m j (h1m j hj)⟩

theorem check_true_of_ones {md5 : String → Nat} {bf : BloomFilter} {k : String}
    {hs : List Nat} (hh : bf.hashes md5 k = some hs)
    (h1 : ∀ j ∈ hs, bf.bit_array.get? j = some 1) :
    bf.check md5 k = some true := by
  unfold BloomFilter.check
  rw [hh]
  exact checkBits_true_of_ones hs _ h1

theorem mapM_eq_some_map {α β : Type} (f : α → Option β) (g : α → β)
    (hf : ∀ a, f a = some (g a)) : ∀ l : List α, l.mapM f = some (l.map g) := by
  intro l
  induction l with
  | nil => rfl
  | cons a t ih => rw [List.mapM_cons, hf a, ih]; rfl

/-- When `size ≠ 0` the hash generator cannot raise. -/
theorem hashes_eq_of_pos {md5 : String → Nat} {bf : BloomFilter} {k : String}
    (hsz : bf.size ≠ 0) :
    bf.hashes md5 k =
      some ((List.range bf.hash_count).map fun i => md5 (k ++ toString i) % bf.size) := by
  unfold BloomFilter.hashes
  exact mapM_eq_some_map _ _ (fun i => by simp [pyMod, hsz]) _

theorem hashes_lt {md5 : String → Nat} {bf : BloomFilter} {k : String} {hs : List Nat}
    (hsz : 0 < bf.size) (hh : bf.hashes md5 k = some hs) : ∀ j ∈ hs, j < bf.size := by
  rw [hashes_eq_of_pos (Nat.pos_iff_ne_zero.1 hsz)] at hh
  intro j hj
  rw [← Option.some.inj hh] at hj
  obtain ⟨i, _, rfl⟩ := List.mem_map.1 hj
  exact Nat.mod_lt _ hsz

theorem setBits_total : ∀ (hs : List Nat) (l : List Nat),
    (∀ j ∈ hs, j < l.length) →
    ∃ l', hs.foldlM listSetBit l = some l' ∧ l'.length = l.length := by
  intro hs
  induction hs with
  | nil => intro l _; exact ⟨l, rfl, rfl⟩
  | cons a t ih =>
    intro l h
    have ha : a < l.length := h a (List.mem_cons_self a t)
    have hset : listSetBit l a = some (l.set a 1) := by simp [listSetBit, ha]
    obtain ⟨l', hl', hlen⟩ :=
      ih (l.set a 1) fun j hj => by
        rw [List.length_set]; exact h j (List.mem_cons_of_mem a hj)
    refine ⟨l', ?_, by rw [hlen, List.length_set]⟩
    rw [List.foldlM_cons, hset]
    simpa using hl'

theorem checkBits_total : ∀ (hs : List Nat) (l : List Nat),
    (∀ j ∈ hs, j < l.length) → ∃ b, checkBits l hs = some b := by
  intro hs
  induction hs with
  | nil => intro l _; exact ⟨true, rfl⟩
  | cons a t ih =>
    intro l h
    have ha : a < l.length := h a (List.mem_cons_self a t)
    have hv : l.get? a = some (l.get ⟨a, ha⟩) := List.get?_eq_get ha
    unfold checkBits
    rw [hv]
    dsimp only
    by_cases hz : l.get ⟨a, ha⟩ ≠ 0
    · rw [if_pos hz]
      exact ih l fun j hj => h j (List.mem_cons_of_mem a hj)
    · rw [if_neg hz]
      exact ⟨false, rfl⟩

theorem add_total {md5 : String → Nat} {bf : BloomFilter} (k : String)
    (hwf : bf.wf) (hsz : 0 < bf.size) :
    ∃ bf', bf.add md5 k = some bf' ∧ bf'.wf ∧ bf'.size = bf.size ∧
      bf'.hash_count = bf.hash_count := by
  have hh := @hashes_eq_of_pos md5 bf k (Nat.pos_iff_ne_zero.1 hsz)
  have hlt := hashes_lt hsz hh
  obtain ⟨l', hl', hlen⟩ :=
    setBits_total _ bf.bit_array fun j hj => by rw [hwf]; exact hlt j hj
  refine ⟨{ bf with bit_array := l' }, ?_, ?_, rfl, rfl⟩
  · unfold BloomFilter.add
    rw [hh]
    dsimp only
    rw [hl']
  · show l'.length = bf.size
    rw [hlen, hwf]

theorem check_total {md5 : String → Nat} {bf : BloomFilter} (k : String)
    (hwf : bf.wf) (hsz : 0 < bf.size) : ∃ b, bf.check md5 k = some b := by
  have hh := @hashes_eq_of_pos md5 bf k (Nat.pos_iff_ne_zero.1 hsz)
  have hlt := hashes_lt hsz hh
  obtain ⟨b, hb⟩ := checkBits_total _ bf.bit_array fun j hj => by rw [hwf]; exact hlt j hj
  refine ⟨b, ?_⟩
  unfold BloomFilter.check
  rw [hh]
  dsimp only
  exact hb

theorem addAll_total {md5 : String → Nat} :
    ∀ (ks : List String) (bf : BloomFilter), bf.wf → 0 < bf.size →
    ∃ bf', bf.addAll md5 ks = some bf' ∧ bf'.wf ∧ bf'.size = bf.size := by
  intro ks
  induction ks with
  | nil => intro bf hwf _; exact ⟨bf, rfl, hwf, rfl⟩
  | cons a t ih =>
    intro bf hwf hsz
    obtain ⟨b1, hb1, hwf1, hsz1, _⟩ := @add_total md5 bf a hwf hsz
    obtain ⟨bf', hbf', hwf', hsz'⟩ := ih b1 hwf1 (hsz1 ▸ hsz)
    refine ⟨bf', ?_, hwf', by rw [hsz', hsz1]⟩
    unfold BloomFilter.addAll at hbf' ⊢
    rw [List.foldlM_cons, hb1]
    simpa using hbf'

theorem init_wf (s hc : Nat) : (BloomFilter.init s hc).wf := by
  show (List.replicate s (0 : Nat)).length = s
  rw [List.length_replicate]

/-! ## Claim theorems: Bloom filter -/

/-- **C1.** For every key `k` and every `BloomFilter` with `hash_count ≥ 1`:
immediately after a completed `add(k)` the call `check(k)` returns `True`,
and it keeps returning `True` after any further sequence of completed `add`
operations on other keys — bits are never cleared, so membership answers are
monotone and there are no false negatives. -/
theorem bloom_no_false_negatives (md5 : String → Nat) (bf bf' bf'' : BloomFilter)
    (k : String) (ks : List String)
    (hhc : 1 ≤ bf.hash_count)
    (hadd : bf.add md5 k = some bf')
    (hmore : bf'.addAll md5 ks = some bf'') :
    bf'.check md5 k = some true ∧ bf''.check md5 k = some true := by
  obtain ⟨hs, hh, hb, hsz, hhc'⟩ := add_eq_some hadd
  have hones : ∀ j ∈ hs, bf'.bit_array.get? j = some 1 := setBits_sets_one hs _ _ hb
  have hh' : bf'.hashes md5 k = some hs := by rw [hashes_congr hsz hhc']; exact hh
  obtain ⟨h2sz, h2hc, h2m⟩ := addAll_mono ks bf' bf'' hmore
  have hh'' : bf''.hashes md5 k = some hs := by rw [hashes_congr h2sz h2hc]; exact hh'
  exact ⟨check_true_of_ones hh' hones,
    check_true_of_ones hh'' fun j hj => h2m j (hones j hj)⟩

/-- Witness for `bloom_no_false_negatives`: a concrete filter, key and later adds. -/
theorem bloom_no_false_negatives_witness :
    1 ≤ (BloomFilter.init 7 2).hash_count ∧
    (BloomFilter.init 7 2).add md5c "a" = some bfW ∧
    bfW.addAll md5c ["b"] = some bfW ∧
    (bfW.check md5c "a" = some true ∧ bfW.check md5c "a" = some true) :=
  ⟨by decide, by decide, by decide,
    bloom_no_false_negatives md5c (BloomFilter.init 7 2) bfW bfW "a" ["b"]
      (by decide) (by decide) (by decide)⟩

/-- **C6 counterexample.** `BloomFilter.__init__` performs no validation:
called with `size = 0` it succeeds, returning an object with an empty bit
array, instead of failing with `InvalidConfiguration`; the failure instead
surfaces as a `ZeroDivisionError` (`none`) at the first `add` or `check`. -/
theorem bloom_size_zero_constructs :
    BloomFilter.init 0 9 = { size := 0, hash_count := 9, bit_array := [] } ∧
    (BloomFilter.init 0 9).add md5c "x" = none ∧
    (BloomFilter.init 0 9).check md5c "x" = none :=
  ⟨rfl, by decide, by decide⟩

/-- **C6 (amended).** Construction never fails — a `size = 0` filter is
accepted and only its `add`/`check` raise — and for every filter constructed
with `size ≥ 1`, `add` and `check` are total on every input string, through
any sequence of `add` operations: no call returns `none`. -/
theorem bloom_total_of_pos_size (md5 : String → Nat) (s hc : Nat) (ks : List String)
    (k : String) (hs1 : 1 ≤ s) :
    (BloomFilter.init s hc).addAll md5 ks ≠ none ∧
    (((BloomFilter.init s hc).addAll md5 ks).bind fun b => b.add md5 k) ≠ none ∧
    (((BloomFilter.init s hc).addAll md5 ks).bind fun b => b.check md5 k) ≠ none := by
  obtain ⟨bf', hbf', hwf', hsz'⟩ :=
    @addAll_total md5 ks (BloomFilter.init s hc) (init_wf s hc) hs1
  have hpos : 0 < bf'.size := hsz' ▸ hs1
  obtain ⟨bf'', hbf'', _, _, _⟩ := @add_total md5 bf' k hwf' hpos
  obtain ⟨b, hb⟩ := @check_total md5 bf' k hwf' hpos
  refine ⟨by rw [hbf']; exact Option.some_ne_none _, ?_, ?_⟩
  · rw [hbf', Option.some_bind, hbf'']
    exact Option.some_ne_none _
  · rw [hbf', Option.some_bind, hb]
    exact Option.some_ne_none _

/-- Witness for `bloom_total_of_pos_size` at a concrete filter and keys. -/
theorem bloom_total_of_pos_size_witness :
    1 ≤ 3 ∧
    ((BloomFilter.init 3 2).addAll md5c ["a"] ≠ none ∧
     (((BloomFilter.init 3 2).addAll md5c ["a"]).bind fun b => b.add md5c "b") ≠ none ∧
     (((BloomFilter.init 3 2).addAll md5c ["a"]).bind fun b => b.check md5c "b") ≠ none) :=
  ⟨by decide, bloom_total_of_pos_size md5c 3 2 ["a"] "b" (by decide)⟩

/-- **C10.** The constructor accepts `hash_count = 0` without error, and any
filter with `hash_count = 0` answers `check k = True` for every key `k` —
including a freshly constructed filter to which nothing was ever added: the
conjunction over zero derived positions is vacuously true, so the
"definitely absent" answer is never produced. -/
theorem bloom_hash_count_zero_check_true (md5 : String → Nat) (s : Nat)
    (bf : BloomFilter) (k : String) (hbf : bf.hash_count = 0) :
    (BloomFilter.init s 0).hash_count = 0 ∧
    (BloomFilter.init s 0).check md5 k = some true ∧
    bf.check md5 k = some true := by
  have key : ∀ b : BloomFilter, b.hash_count = 0 → b.check md5 k = some true := by
    intro b hb
    unfold BloomFilter.check BloomFilter.hashes
    rw [hb]
    rfl
  exact ⟨rfl, key _ rfl, key bf hbf⟩

/-- Witness for `bloom_hash_count_zero_check_true` at a concrete filter. -/
theorem bloom_hash_count_zero_check_true_witness :
    (⟨5, 0, [0, 1, 0]⟩ : BloomFilter).hash_count = 0 ∧
    ((BloomFilter.init 4 0).hash_count = 0 ∧
     (BloomFilter.init 4 0).check md5c "z" = some true ∧
     (⟨5, 0, [0, 1, 0]⟩ : BloomFilter).check md5c "z" = some true) :=
  ⟨by decide, bloom_hash_count_zero_check_true md5c 4 ⟨5, 0, [0, 1, 0]⟩ "z" (by decide)⟩

/-! ## Pipeline lemmas -/

theorem worker_handle_task_not_done {ρ ρ' : Type} (parse : ρ → GenRun ρ')
    (s : Nat) (r : ρ) : (worker_handle_task parse s r).isDone = false := by
  unfold worker_handle_task
  by_cases h : (parse r).raises <;> simp [h, Msg.isDone]

theorem worker_stream_eq {ρ ρ' : Type} (parse : ρ → GenRun ρ')
    (ts : List (Nat × ρ)) (extra : List (WTask ρ)) :
    worker_loop parse ((ts.map fun p => WTask.task p.1 p.2) ++ WTask.poison :: extra) =
      (ts.map fun p => worker_handle_task parse p.1 p.2) ++ [Msg.done] := by
  induction ts with
  | nil => rfl
  | cons a t ih => simp only [List.map_cons, List.cons_append, worker_loop, List.append_eq, ih]

theorem worker_msgs_eq {ρ ρ' : Type} (parse : ρ → GenRun ρ') (ts : List (Nat × ρ)) :
    worker_msgs parse ts =
      (ts.map fun p => worker_handle_task parse p.1 p.2) ++ [Msg.done] :=
  worker_stream_eq parse ts []

theorem countDone_handles {ρ ρ' : Type} (parse : ρ → GenRun ρ') (ts : List (Nat × ρ)) :
    countDone (ts.map fun p => worker_handle_task parse p.1 p.2) = 0 := by
  unfold countDone
  rw [List.countP_eq_zero]
  intro m hm
  obtain ⟨p, _, rfl⟩ := List.mem_map.1 hm
  simp [worker_handle_task_not_done]

theorem countDone_worker_msgs {ρ ρ' : Type} (parse : ρ → GenRun ρ') (ts : List (Nat × ρ)) :
    countDone (worker_msgs parse ts) = 1 := by
  rw [worker_msgs_eq]
  unfold countDone
  rw [List.countP_append]
  have h0 := countDone_handles parse ts
  unfold countDone at h0
  rw [h0]
  simp [List.countP_cons, Msg.isDone]

theorem writer_step_workers_done {ρ' : Type} (st : WriterState ρ') (m : Msg ρ') :
    (writer_step st m).workers_done =
      st.workers_done + (if m.isDone then 1 else 0) := by
  cases m <;> simp [writer_step, Msg.isDone]

theorem writer_step_counts {ρ' : Type} (st : WriterState ρ') (m : Msg ρ') :
    (writer_step st m).count_input = st.count_input + msgInput m ∧
    (writer_step st m).count_output = st.count_output + msgOutput m ∧
    (writer_step st m).count_error = st.count_error + msgError m ∧
    (writer_step st m).written.length = st.written.length + msgWrites m := by
  cases m <;> simp [writer_step, msgInput, msgOutput, msgError, msgWrites]

theorem foldl_writer_step_workers_done {ρ' : Type} :
    ∀ (msgs : List (Msg ρ')) (st : WriterState ρ'),
    (List.foldl writer_step st msgs).workers_done = st.workers_done + countDone msgs := by
  intro msgs
  induction msgs with
  | nil => intro st; simp [countDone]
  | cons m rest ih =>
    intro st
    rw [List.foldl_cons, ih, writer_step_workers_done]
    unfold countDone
    rw [List.countP_cons]
    cases hm : m.isDone <;> simp [hm] <;> omega

theorem foldl_writer_step_counts {ρ' : Type} :
    ∀ (msgs : List (Msg ρ')) (st : WriterState ρ'),
    (List.foldl writer_step st msgs).count_input =
      st.count_input + (msgs.map msgInput).sum ∧
    (List.foldl writer_step st msgs).count_output =
      st.count_output + (msgs.map msgOutput).sum ∧
    (List.foldl writer_step st msgs).count_error =
      st.count_error + (msgs.map msgError).sum ∧
    (List.foldl writer_step st msgs).written.length =
      st.written.length + (msgs.map msgWrites).sum := by
  intro msgs
  induction msgs with
  | nil => intro st; simp
  | cons m rest ih =>
    intro st
    obtain ⟨s1, s2, s3, s4⟩ := writer_step_counts st m
    obtain ⟨h1, h2, h3, h4⟩ := ih (writer_step st m)
    rw [List.foldl_cons]
    refine ⟨?_, ?_, ?_, ?_⟩ <;>
      simp only [h1, h2, h3, h4, s1, s2, s3, s4, List.map_cons, List.sum_cons] <;> omega

theorem writer_run_of_ge {ρ' : Type} (nw : Nat) (st : WriterState ρ')
    (msgs : List (Msg ρ')) (h : ¬ st.workers_done < nw) :
    writer_run nw st msgs = (st, true, msgs) := by
  cases msgs with
  | nil => simp [writer_run, h]
  | cons m rest => simp [writer_run, h]

theorem writer_run_append {ρ' : Type} (nw : Nat) :
    ∀ (pre : List (Msg ρ')) (st : WriterState ρ') (rest : List (Msg ρ')),
    st.workers_done + countDone pre < nw →
    writer_run nw st (pre ++ rest) =
      writer_run nw (List.foldl writer_step st pre) rest := by
  intro pre
  induction pre with
  | nil => intro st rest _; rfl
  | cons m t ih =>
    intro st rest h
    have hcd : countDone (m :: t) = countDone t + (if m.isDone then 1 else 0) := by
      unfold countDone; rw [List.countP_cons]
    rw [hcd] at h
    have hlt : st.workers_done < nw := by
      cases hm : m.isDone <;> simp [hm] at h <;> omega
    rw [List.cons_append]
    show writer_run nw st (m :: (t ++ rest)) = _
    simp only [writer_run, if_pos hlt]
    rw [List.foldl_cons]
    apply ih
    rw [writer_step_workers_done]
    cases hm : m.isDone <;> simp [hm] at h ⊢ <;> omega

theorem writer_consumes_through_nth_done {ρ' : Type} (nw : Nat) (st : WriterState ρ')
    (pre post : List (Msg ρ')) (hpre : st.workers_done + countDone pre + 1 = nw) :
    writer_run nw st (pre ++ Msg.done :: post) =
      (List.foldl writer_step st (pre ++ [Msg.done]), true, post) := by
  have h1 : st.workers_done + countDone pre < nw := by omega
  rw [writer_run_append nw pre st (Msg.done :: post) h1]
  have hwd : (List.foldl writer_step st pre).workers_done =
      st.workers_done + countDone pre := foldl_writer_step_workers_done pre st
  have hlt : (List.foldl writer_step st pre).workers_done < nw := by omega
  simp only [writer_run, if_pos hlt]
  have h2 : ¬ (writer_step (List.foldl writer_step st pre) Msg.done).workers_done < nw := by
    rw [writer_step_workers_done]
    simp only [Msg.isDone, if_pos]
    omega
  rw [writer_run_of_ge nw _ post h2, List.foldl_append]
  rfl

theorem writer_consumes_all {ρ' : Type} (nw : Nat) (msgs : List (Msg ρ'))
    (hcount : countDone msgs = nw) (hlast : msgs.getLast? = some Msg.done) :
    writer_run nw (initWriterState ρ') msgs =
      (List.foldl writer_step (initWriterState ρ') msgs, true, []) := by
  have hne : msgs ≠ [] := by
    intro h; rw [h] at hlast; cases hlast
  have hlasteq : msgs.getLast hne = Msg.done := by
    have h := List.getLast?_eq_getLast msgs hne
    rw [hlast] at h
    exact (Option.some.inj h).symm
  have hdecomp : msgs.dropLast ++ [Msg.done] = msgs := by
    rw [← hlasteq]
    exact List.dropLast_append_getLast hne
  have hcd : countDone msgs.dropLast + 1 = nw := by
    have := hcount
    rw [← hdecomp] at this
    unfold countDone at this ⊢
    rw [List.countP_append] at this
    simp [List.countP_cons, Msg.isDone] at this
    omega
  have := writer_consumes_through_nth_done nw (initWriterState ρ') msgs.dropLast []
    (by simp [initWriterState]; omega)
  rw [← hdecomp]
  simpa using this

theorem sum_map_const {α : Type} (f : α → Nat) (c : Nat) :
    ∀ l : List α, (∀ x ∈ l, f x = c) → (l.map f).sum = c * l.length := by
  intro l
  induction l with
  | nil => intro _; simp
  | cons a t ih =>
    intro h
    rw [List.map_cons, List.sum_cons, h a (List.mem_cons_self a t),
      ih fun x hx => h x (List.mem_cons_of_mem a hx), List.length_cons]
    ring

theorem worker_msgs_map_sum {ρ ρ' : Type} (parse : ρ → GenRun ρ') (g : Msg ρ' → Nat)
    (c : Nat) (hdone : g Msg.done = 0)
    (htask : ∀ (s : Nat) (r : ρ), g (worker_handle_task parse s r) = c)
    (ts : List (Nat × ρ)) :
    ((worker_msgs parse ts).map g).sum = c * ts.length := by
  rw [worker_msgs_eq, List.map_append, List.sum_append, List.map_map]
  have h1 : (ts.map (g ∘ fun p => worker_handle_task parse p.1 p.2)).sum = c * ts.length := by
    refine sum_map_const _ c ts fun x _ => ?_
    exact htask x.1 x.2
  rw [h1]
  simp [hdone]

theorem parts_map_sum {ρ ρ' : Type} (parse : ρ → GenRun ρ') (g : Msg ρ' → Nat)
    (c : Nat) (hdone : g Msg.done = 0)
    (htask : ∀ (s : Nat) (r : ρ), g (worker_handle_task parse s r) = c) :
    ∀ parts : List (List (Nat × ρ)),
    (((parts.map fun ts => worker_msgs parse ts).flatten).map g).sum =
      c * parts.flatten.length := by
  intro parts
  induction parts with
  | nil => simp
  | cons ts rest ih =>
    rw [List.map_cons, List.flatten_cons, List.map_append, List.sum_append, ih,
      worker_msgs_map_sum parse g c hdone htask ts, List.flatten_cons,
      List.length_append]
    ring

theorem countDone_parts {ρ ρ' : Type} (parse : ρ → GenRun ρ') :
    ∀ parts : List (List (Nat × ρ)),
    countDone ((parts.map fun ts => worker_msgs parse ts).flatten) = parts.length := by
  intro parts
  induction parts with
  | nil => rfl
  | cons ts rest ih =>
    rw [List.map_cons, List.flatten_cons]
    unfold countDone at ih ⊢
    rw [List.countP_append, ih]
    have := countDone_worker_msgs parse ts
    unfold countDone at this
    rw [this]
    simp only [List.length_cons]
    omega

theorem handle_success_contrib {ρ ρ' : Type} (parse : ρ → GenRun ρ') (s : Nat) (r : ρ)
    (h1 : (parse r).raises = false) (h2 : ((parse r).yields.filterMap id).length = 1) :
    msgInput (worker_handle_task parse s r) = 1 ∧
    msgOutput (worker_handle_task parse s r) = 1 ∧
    msgError (worker_handle_task parse s r) = 0 ∧
    msgWrites (worker_handle_task parse s r) = 1 := by
  simp [worker_handle_task, msgInput, msgOutput, msgError, msgWrites, h1, h2]

/-! ## Claim theorems: pipeline -/

/-- **C2.** For a pipeline run over `M` input records with `W ≥ 1` workers and
a transform that succeeds on every record producing exactly one output
record: for every distribution of the enumerated tasks among the workers and
every admissible arrival order of their result messages, the writer's final
accumulator — which `parse_parallel` copies into the returned
`ParseToolStats` — satisfies `count_input = M`, `count_output = M`,
`count_error = 0`, and exactly `M` records are appended to the output
container (in some order); the writer consumes every message. -/
theorem pipeline_all_success_counts {ρ ρ' : Type} (parse : ρ → GenRun ρ')
    (records : List ρ) (W : Nat) (parts : List (List (Nat × ρ)))
    (msgs : List (Msg ρ'))
    (hW : 1 ≤ W)
    (hsucc : ∀ r, (parse r).raises = false ∧ ((parse r).yields.filterMap id).length = 1)
    (hparts : parts.length = W)
    (hdist : parts.flatten.Perm records.enum)
    (harrive : msgs.Perm (parts.map fun ts => worker_msgs parse ts).flatten)
    (hlast : msgs.getLast? = some Msg.done) :
    (writer_run W (initWriterState ρ') msgs).1.count_input = records.length ∧
    (writer_run W (initWriterState ρ') msgs).1.count_output = records.length ∧
    (writer_run W (initWriterState ρ') msgs).1.count_error = 0 ∧
    (writer_run W (initWriterState ρ') msgs).1.written.length = records.length ∧
    (writer_run W (initWriterState ρ') msgs).2.2 = [] := by
  have hM : parts.flatten.length = records.length := by
    rw [hdist.length_eq, List.enum_length]
  have hcount : countDone msgs = W := by
    unfold countDone
    rw [harrive.countP_eq]
    have hp := countDone_parts parse parts
    unfold countDone at hp
    rw [hp, hparts]
  have hrun := writer_consumes_all W msgs hcount hlast
  rw [hrun]
  obtain ⟨h1, h2, h3, h4⟩ := foldl_writer_step_counts msgs (initWriterState ρ')
  have hsum : ∀ (g : Msg ρ' → Nat) (c : Nat), g Msg.done = 0 →
      (∀ (s : Nat) (r : ρ), g (worker_handle_task parse s r) = c) →
      (msgs.map g).sum = c * records.length := by
    intro g c hg hc
    rw [(harrive.map g).sum_eq, parts_map_sum parse g c hg hc parts, hM]
  have hin : (msgs.map msgInput).sum = records.length := by
    have := hsum msgInput 1 rfl
      (fun s r => (handle_success_contrib parse s r (hsucc r).1 (hsucc r).2).1)
    simpa using this
  have hout : (msgs.map msgOutput).sum = records.length := by
    have := hsum msgOutput 1 rfl
      (fun s r => (handle_success_contrib parse s r (hsucc r).1 (hsucc r).2).2.1)
    simpa using this
  have herr : (msgs.map msgError).sum = 0 := by
    have := hsum msgError 0 rfl
      (fun s r => (handle_success_contrib parse s r (hsucc r).1 (hsucc r).2).2.2.1)
    simpa using this
  have hwr : (msgs.map msgWrites).sum = records.length := by
    have := hsum msgWrites 1 rfl
      (fun s r => (handle_success_contrib parse s r (hsucc r).1 (hsucc r).2).2.2.2)
    simpa using this
  refine ⟨?_, ?_, ?_, ?_, rfl⟩
  · show (List.foldl writer_step (initWriterState ρ') msgs).count_input = records.length
    rw [h1, hin]
    simp [initWriterState]
  · show (List.foldl writer_step (initWriterState ρ') msgs).count_output = records.length
    rw [h2, hout]
    simp [initWriterState]
  · show (List.foldl writer_step (initWriterState ρ') msgs).count_error = 0
    rw [h3, herr]
    simp [initWriterState]
  · show (List.foldl writer_step (initWriterState ρ') msgs).written.length = records.length
    rw [h4, hwr]
    simp [initWriterState]

/-- Witness for `pipeline_all_success_counts`: 3 records, 2 workers, a
concrete task distribution and arrival order. -/
theorem pipeline_all_success_counts_witness :
    (1 ≤ 2 ∧
     (∀ r, (parseOkB r).raises = false ∧
       ((parseOkB r).yields.filterMap id).length = 1) ∧
     partsW.length = 2 ∧
     partsW.flatten.Perm recordsW.enum ∧
     msgsW.Perm (partsW.map fun ts => worker_msgs parseOkB ts).flatten ∧
     msgsW.getLast? = some Msg.done) ∧
    ((writer_run 2 (initWriterState Bool) msgsW).1.count_input = recordsW.length ∧
     (writer_run 2 (initWriterState Bool) msgsW).1.count_output = recordsW.length ∧
     (writer_run 2 (initWriterState Bool) msgsW).1.count_error = 0 ∧
     (writer_run 2 (initWriterState Bool) msgsW).1.written.length = recordsW.length ∧
     (writer_run 2 (initWriterState Bool) msgsW).2.2 = []) :=
  ⟨⟨by decide, by decide, by decide, by decide, by decide, by decide⟩,
   pipeline_all_success_counts parseOkB recordsW 2 partsW msgsW
     (by decide) (by decide) (by decide) (by decide) (by decide) (by decide)⟩

/-- **C3.** (a) A worker whose transform construction fails emits exactly one
`done` message, immediately; (b) a worker whose construction succeeds and
that reaches the poison pill emits its per-task result messages followed by
exactly one `done` — so every worker emits exactly one `done`; (c) the
writer's loop terminates exactly upon consuming the `workerCount`-th `done`:
it consumes the stream through that message, exits the loop — closing the
output container (the `true` component) — and reads nothing further. -/
theorem worker_done_writer_termination {ρ ρ' : Type} (parse : ρ → GenRun ρ')
    (ts : List (Nat × ρ)) (extra : List (WTask ρ)) (tasks0 : List (WTask ρ))
    (nw : Nat) (st : WriterState ρ') (pre post : List (Msg ρ'))
    (hwd : st.workers_done + countDone pre + 1 = nw) :
    countDone (@worker_process ρ ρ' none tasks0) = 1 ∧
    worker_process (some parse)
        ((ts.map fun p => WTask.task p.1 p.2) ++ WTask.poison :: extra) =
      (ts.map fun p => worker_handle_task parse p.1 p.2) ++ [Msg.done] ∧
    countDone ((ts.map fun p => worker_handle_task parse p.1 p.2) ++ [Msg.done]) = 1 ∧
    writer_run nw st (pre ++ Msg.done :: post) =
      (List.foldl writer_step st (pre ++ [Msg.done]), true, post) ∧
    (writer_run nw st (pre ++ Msg.done :: post)).2.1 = true := by
  have hb : worker_process (some parse)
      ((ts.map fun p => WTask.task p.1 p.2) ++ WTask.poison :: extra) =
      (ts.map fun p => worker_handle_task parse p.1 p.2) ++ [Msg.done] :=
    worker_stream_eq parse ts extra
  have hc : countDone ((ts.map fun p => worker_handle_task parse p.1 p.2) ++ [Msg.done]) = 1 := by
    unfold countDone
    rw [List.countP_append]
    have h0 := countDone_handles parse ts
    unfold countDone at h0
    rw [h0]
    simp [List.countP_cons, Msg.isDone]
  have hw := writer_consumes_through_nth_done nw st pre post hwd
  refine ⟨rfl, hb, hc, hw, ?_⟩
  rw [hw]

/-- Witness for `worker_done_writer_termination` at concrete streams. -/
theorem worker_done_writer_termination_witness :
    ((initWriterState Bool).workers_done + countDone [(Msg.done : Msg Bool)] + 1 = 2) ∧
    (countDone (@worker_process Bool Bool none []) = 1 ∧
     worker_process (some parseOkB)
         (([((0 : Nat), true)].map fun p => WTask.task p.1 p.2) ++ WTask.poison :: []) =
       ([((0 : Nat), true)].map fun p => worker_handle_task parseOkB p.1 p.2) ++ [Msg.done] ∧
     countDone (([((0 : Nat), true)].map fun p => worker_handle_task parseOkB p.1 p.2) ++
       [Msg.done]) = 1 ∧
     writer_run 2 (initWriterState Bool)
         ([Msg.done] ++ Msg.done :: [Msg.result 5 none ⟨1, 0, 1⟩]) =
       (List.foldl writer_step (initWriterState Bool) ([Msg.done] ++ [Msg.done]), true,
         [Msg.result 5 none ⟨1, 0, 1⟩]) ∧
     (writer_run 2 (initWriterState Bool)
         ([Msg.done] ++ Msg.done :: [Msg.result 5 none ⟨1, 0, 1⟩])).2.1 = true) :=
  ⟨by decide,
   worker_done_writer_termination parseOkB [((0 : Nat), true)] [] [] 2
     (initWriterState Bool) [Msg.done] [Msg.result 5 none ⟨1, 0, 1⟩] (by decide)⟩

/-- **C4.** When the transform raises on a record, the worker emits a failure
message `("result", seq_id, None, stats)` carrying that task's sequence id
with `count_input = 1` and `count_error = 1`, and the worker does not
terminate: it proceeds to dequeue and process the next task, so no single
failing record aborts the run. -/
theorem worker_failure_isolated {ρ ρ' : Type} (parse : ρ → GenRun ρ')
    (s : Nat) (r : ρ) (rest : List (WTask ρ))
    (hfail : (parse r).raises = true) :
    worker_loop parse (WTask.task s r :: rest) =
      Msg.result s none ⟨1, ((parse r).yields.filterMap id).length, 1⟩ ::
        worker_loop parse rest := by
  simp [worker_loop, worker_handle_task, hfail]

/-- Witness for `worker_failure_isolated`: the failing task is followed by a
still-processed task stream. -/
theorem worker_failure_isolated_witness :
    (parseFail 7).raises = true ∧
    worker_loop parseFail (WTask.task 3 7 :: [WTask.poison]) =
      Msg.result 3 none ⟨1, ((parseFail 7).yields.filterMap id).length, 1⟩ ::
        worker_loop parseFail [WTask.poison] :=
  ⟨by decide, worker_failure_isolated parseFail 3 7 [WTask.poison] (by decide)⟩

/-- **C9.** If the transform yields some records for a task and then raises on
that same task, the worker's failure message carries `count_error = 1`
together with `count_output` equal to the number of (non-`None`) records
yielded before the error; the writer adds that `count_output` to the global
total while appending none of those records — so the global `count_output`
can exceed the number of records actually present in the output container. -/
theorem failure_output_counted_not_written {ρ ρ' : Type} (parse : ρ → GenRun ρ')
    (s : Nat) (r : ρ) (st : WriterState ρ')
    (hfail : (parse r).raises = true) :
    worker_handle_task parse s r =
      Msg.result s none ⟨1, ((parse r).yields.filterMap id).length, 1⟩ ∧
    (writer_step st (worker_handle_task parse s r)).count_output =
      st.count_output + ((parse r).yields.filterMap id).length ∧
    (writer_step st (worker_handle_task parse s r)).written = st.written ∧
    (writer_step st (worker_handle_task parse s r)).count_error = st.count_error + 1 := by
  have hmsg : worker_handle_task parse s r =
      Msg.result s none ⟨1, ((parse r).yields.filterMap id).length, 1⟩ := by
    simp [worker_handle_task, hfail]
  refine ⟨hmsg, ?_, ?_, ?_⟩ <;> rw [hmsg] <;> simp [writer_step]

/-- Witness for `failure_output_counted_not_written`: one record is yielded
before the raise, so `count_output` grows by 1 with nothing written. -/
theorem failure_output_counted_not_written_witness :
    (parseFail 5).raises = true ∧
    (worker_handle_task parseFail 0 5 =
       Msg.result 0 none ⟨1, ((parseFail 5).yields.filterMap id).length, 1⟩ ∧
     (writer_step (initWriterState Nat) (worker_handle_task parseFail 0 5)).count_output =
       (initWriterState Nat).count_output + ((parseFail 5).yields.filterMap id).length ∧
     (writer_step (initWriterState Nat) (worker_handle_task parseFail 0 5)).written =
       (initWriterState Nat).written ∧
     (writer_step (initWriterState Nat) (worker_handle_task parseFail 0 5)).count_error =
       (initWriterState Nat).count_error + 1) :=
  ⟨by decide,
   failure_output_counted_not_written parseFail 0 5 (initWriterState Nat) (by decide)⟩

/-- **C8.** For every `workerCount ≥ 1`, both the work queue and the result
queue are created with capacity exactly `max(100, workerCount * 10)` — in
particular at least 100 and at least `10 * workerCount` — and the capacity is
a function of the worker count fixed at construction: nothing later in the
run resizes a queue. -/
theorem queues_bounded (w : Nat) (hw : 1 ≤ w) :
    (mkPipelineQueues w).work_queue_maxsize = max 100 (w * 10) ∧
    (mkPipelineQueues w).result_queue_maxsize = max 100 (w * 10) ∧
    100 ≤ (mkPipelineQueues w).work_queue_maxsize ∧
    w * 10 ≤ (mkPipelineQueues w).result_queue_maxsize := by
  refine ⟨rfl, rfl, ?_, ?_⟩ <;> simp [mkPipelineQueues, queue_maxsize]

/-- Witness for `queues_bounded` at 20 workers (capacity 200). -/
theorem queues_bounded_witness :
    1 ≤ 20 ∧
    ((mkPipelineQueues 20).work_queue_maxsize = max 100 (20 * 10) ∧
     (mkPipelineQueues 20).result_queue_maxsize = max 100 (20 * 10) ∧
     100 ≤ (mkPipelineQueues 20).work_queue_maxsize ∧
     20 * 10 ≤ (mkPipelineQueues 20).result_queue_maxsize) :=
  ⟨by decide, queues_bounded 20 (by decide)⟩

/-- **C7 counterexample.** The interrupt handler's observable behavior is
identical whether the best-effort delete succeeds or raises:
`except Exception: pass` swallows the delete failure without emitting any log
event, so the claim that a failed delete is logged is false — the only log
events are the unconditional "Interrupted!" and "Discarding incomplete
output" warnings emitted before the delete is attempted. -/
theorem interrupt_delete_failure_not_logged :
    on_interrupt [true] true (Except.error "unlink failed") =
      on_interrupt [true] true (Except.ok ()) := rfl

/-- **C7 (amended).** If the run is interrupted, the Coordinator terminates
every still-alive Worker and the Writer if alive, attempts to delete the
partially written output, with a failure of that delete silently swallowed —
neither logged nor raised (the handler's events do not depend on the delete
outcome) — and re-raises the interruption instead of returning a
`ParseToolStats`. -/
theorem interrupt_cleanup_reraises (wa : List Bool) (w : Bool)
    (d : Except String Unit) (i : Nat) (hi : wa.get? i = some true) :
    (on_interrupt wa w d).2 = RunOutcome.reraised ∧
    CleanupEvent.terminateWorker i ∈ (on_interrupt wa w d).1 ∧
    (w = true → CleanupEvent.terminateWriter ∈ (on_interrupt wa w d).1) ∧
    CleanupEvent.attemptDelete ∈ (on_interrupt wa w d).1 ∧
    on_interrupt wa w d = on_interrupt wa w (Except.ok ()) := by
  have henum : (i, true) ∈ wa.enum := by
    rw [List.mk_mem_enum_iff_get?]
    exact hi
  refine ⟨rfl, ?_, ?_, ?_, ?_⟩
  · show CleanupEvent.terminateWorker i ∈
      [CleanupEvent.logInterrupted] ++
        ((wa.enum.filter fun p => p.2).map fun p => CleanupEvent.terminateWorker p.1) ++
        (if w then [CleanupEvent.terminateWriter] else []) ++
        [CleanupEvent.logDiscarding] ++ try_delete_output d ++ [CleanupEvent.reraise]
    refine List.mem_append_left _ (List.mem_append_left _ (List.mem_append_left _
      (List.mem_append_left _ (List.mem_append_right _ ?_))))
    refine List.mem_map.2 ⟨(i, true), ?_, rfl⟩
    refine List.mem_filter.2 ⟨henum, ?_⟩
    rfl
  · intro hw
    unfold on_interrupt
    subst hw
    simp
  · unfold on_interrupt try_delete_output
    cases d <;> simp
  · unfold on_interrupt try_delete_output
    cases d <;> rfl

/-- Witness for `interrupt_cleanup_reraises`: worker 1 alive, writer alive, a
failing delete. -/
theorem interrupt_cleanup_reraises_witness :
    [false, true].get? 1 = some true ∧
    ((on_interrupt [false, true] true (Except.error "boom")).2 = RunOutcome.reraised ∧
     CleanupEvent.terminateWorker 1 ∈ (on_interrupt [false, true] true (Except.error "boom")).1 ∧
     (true = true →
       CleanupEvent.terminateWriter ∈ (on_interrupt [false, true] true (Except.error "boom")).1) ∧
     CleanupEvent.attemptDelete ∈ (on_interrupt [false, true] true (Except.error "boom")).1 ∧
     on_interrupt [false, true] true (Except.error "boom") =
       on_interrupt [false, true] true (Except.ok ())) :=
  ⟨by decide,
   interrupt_cleanup_reraises [false, true] true (Except.error "boom") 1 (by decide)⟩

end Rubbernecker
